import Mathlib

/-!
Verification development for the streaming divergence-signal pipeline
(backend modules: indicators, swing, divergence, data_connector, signal_engine).

Embedding conventions:
* Python floats are modelled as rationals (ℚ); the claims verified here are
  structural (definedness, ordering, determinism, error behaviour, integer
  scores), not statements about binary rounding.
* Python exceptions are modelled with `Except PyErr`; `PyErr.valueError`
  plays the role of the spec's InvalidArgument.
* Python list slicing `xs[a:b]` (with nonnegative start, as in every reachable
  slice of this code base) is `pySlice`.
-/

set_option maxHeartbeats 1000000

/-- Python exception classes raised by the embedded code. -/
inductive PyErr where
  | valueError
  | zeroDivisionError
  | assertionError
deriving DecidableEq, Repr

/-- Python slice `xs[a:b]` for a nonnegative start index `a`
(slices clamp to the list length, and an empty range yields `[]`). -/
def pySlice {α : Type} (xs : List α) (a b : ℤ) : List α :=
  (xs.drop a.toNat).take (b - a).toNat

/-- Python-style loop over a list that propagates the first raised exception,
as the indicator loops do. -/
def exMap {α β : Type} (f : α → Except PyErr β) : List α → Except PyErr (List β)
  | [] => .ok []
  | a :: l => do
    let b ← f a
    let bs ← exMap f l
    pure (b :: bs)

/-- Loop body of `indicators.ema` from index 1 on: `ema_val` is the carry `e`,
`out[i] = ema_val if i >= period - 1 else None`. -/
def emaGo (k : ℚ) (period : ℤ) (e : ℚ) (i : ℕ) : List ℚ → List (Option ℚ)
  | [] => []
  | p :: rest =>
    let e2 := (p - e) * k + e
    (if period - 1 ≤ (i : ℤ) then some e2 else none) :: emaGo k period e2 (i + 1) rest

/-- Body of `indicators.ema` after the argument guard: index 0 is the seed and
is emitted as `None`. -/
def emaCoreL (series : List ℚ) (period : ℤ) : List (Option ℚ) :=
  match series with
  | [] => []
  | p :: rest => none :: emaGo (2 / ((period : ℚ) + 1)) period p 1 rest

/-- `indicators.ema`: raises ValueError on a non-positive period. -/
def ema (series : List ℚ) (period : ℤ) : Except PyErr (List (Option ℚ)) :=
  if period ≤ 0 then .error .valueError
  else .ok (emaCoreL series period)

/-- Per-index gains of `indicators.rsi` (`gains[0] = 0`). -/
def gainsOf (series : List ℚ) : List ℚ :=
  (List.range series.length).map fun i =>
    if 1 ≤ i then
      let d := series.getD i 0 - series.getD (i - 1) 0
      if 0 < d then d else 0
    else 0

/-- Per-index losses of `indicators.rsi` (`losses[0] = 0`). -/
def lossesOf (series : List ℚ) : List ℚ :=
  (List.range series.length).map fun i =>
    if 1 ≤ i then
      let d := series.getD i 0 - series.getD (i - 1) 0
      if d < 0 then -d else 0
    else 0

/-- Loop of `indicators.rsi` over indices `1..n-1`; the carried pair is
`(avg_gain, avg_loss)` once initialised.  The source asserts that the
averages are initialised in the `i > period` branch; with the wrapper's
`period ≥ 1` guard and indices ascending from 1 that branch is only reached
initialised, so the unreachable arm returns `none`. -/
def rsiGo (period : ℤ) (gains losses : List ℚ) : Option (ℚ × ℚ) → List ℕ → List (Option ℚ)
  | _, [] => []
  | avg?, i :: rest =>
    if (i : ℤ) < period then none :: rsiGo period gains losses avg? rest
    else if (i : ℤ) = period then
      let ag := ((gains.drop 1).take period.toNat).sum / (period : ℚ)
      let al := ((losses.drop 1).take period.toNat).sum / (period : ℚ)
      let v : ℚ := if al = 0 then 100 else if ag = 0 then 0 else 100 - 100 / (1 + ag / al)
      some v :: rsiGo period gains losses (some (ag, al)) rest
    else
      match avg? with
      | some (ag, al) =>
        let ag2 := (ag * ((period : ℚ) - 1) + gains.getD i 0) / (period : ℚ)
        let al2 := (al * ((period : ℚ) - 1) + losses.getD i 0) / (period : ℚ)
        let v : ℚ := if al2 = 0 then 100 else if ag2 = 0 then 0 else 100 - 100 / (1 + ag2 / al2)
        some v :: rsiGo period gains losses (some (ag2, al2)) rest
      | none => none :: rsiGo period gains losses none rest

/-- Body of `indicators.rsi` after the argument guard: `out[0]` stays `None`,
the loop runs over `range(1, n)`. -/
def rsiCore (series : List ℚ) (period : ℤ) : List (Option ℚ) :=
  match series with
  | [] => []
  | _ :: _ =>
    none :: rsiGo period (gainsOf series) (lossesOf series) none
      (List.range' 1 (series.length - 1))

/-- `indicators.rsi`: raises ValueError on a non-positive period. -/
def rsi (series : List ℚ) (period : ℤ) : Except PyErr (List (Option ℚ)) :=
  if period ≤ 0 then .error .valueError
  else .ok (rsiCore series period)

/-- True ranges of `indicators.atr` (`tr[0] = high[0] - low[0]`). -/
def trOf (high low close : List ℚ) : List ℚ :=
  (List.range close.length).map fun i =>
    if i = 0 then high.getD 0 0 - low.getD 0 0
    else
      max (high.getD i 0 - low.getD i 0)
        (max |high.getD i 0 - close.getD (i - 1) 0| |low.getD i 0 - close.getD (i - 1) 0|)

/-- Loop of `indicators.atr`; the carry is `avg_tr`, and the source's
`assert avg_tr is not None` in the `i >= period` branch becomes
`AssertionError`. -/
def atrGo (period : ℤ) (tr : List ℚ) : Option ℚ → List ℕ → Except PyErr (List (Option ℚ))
  | _, [] => .ok []
  | avg?, i :: rest =>
    if (i : ℤ) = period - 1 then
      let a := (tr.take period.toNat).sum / (period : ℚ)
      (atrGo period tr (some a) rest).map fun out => some a :: out
    else if period ≤ (i : ℤ) then
      match avg? with
      | none => .error .assertionError
      | some a =>
        let a2 := (a * ((period : ℚ) - 1) + tr.getD i 0) / (period : ℚ)
        (atrGo period tr (some a2) rest).map fun out => some a2 :: out
    else
      (atrGo period tr avg? rest).map fun out => none :: out

/-- `indicators.atr`: validates only that the three series have equal length. -/
def atr (high low close : List ℚ) (period : ℤ) : Except PyErr (List (Option ℚ)) :=
  if ¬(high.length = low.length ∧ low.length = close.length) then .error .valueError
  else if close.length = 0 then .ok []
  else atrGo period (trOf high low close) none (List.range close.length)

theorem emaGo_length (k : ℚ) (period : ℤ) :
    ∀ (l : List ℚ) (e : ℚ) (i : ℕ), (emaGo k period e i l).length = l.length := by
  intro l
  induction l with
  | nil => intro e i; rfl
  | cons p rest ih => intro e i; simp [emaGo, ih]

theorem emaGo_getD_isSome (k : ℚ) (period : ℤ) :
    ∀ (l : List ℚ) (e : ℚ) (i j : ℕ), j < l.length →
      (((emaGo k period e i l).getD j none).isSome ↔ period - 1 ≤ (i : ℤ) + j) := by
  intro l
  induction l with
  | nil => intro e i j h; simp at h
  | cons p rest ih =>
    intro e i j h
    cases j with
    | zero =>
      simp only [emaGo, List.getD_cons_zero]
      split <;> simp <;> omega
    | succ j' =>
      simp only [emaGo, List.getD_cons_succ]
      rw [ih _ _ j' (by simpa using h)]
      constructor <;> intro h2 <;> omega

theorem emaCoreL_length (series : List ℚ) (period : ℤ) :
    (emaCoreL series period).length = series.length := by
  cases series with
  | nil => rfl
  | cons p rest => simp [emaCoreL, emaGo_length]

theorem emaCoreL_isSome (series : List ℚ) (period : ℤ) (i : ℕ) (hi : i < series.length) :
    (((emaCoreL series period).getD i none).isSome ↔ (1 ≤ i ∧ period - 1 ≤ (i : ℤ))) := by
  cases series with
  | nil => simp at hi
  | cons p rest =>
    cases i with
    | zero => simp [emaCoreL]
    | succ j =>
      simp only [emaCoreL, List.getD_cons_succ]
      rw [emaGo_getD_isSome _ _ rest p 1 j (by simpa using hi)]
      constructor <;> intro h2 <;> omega

theorem rsiGo_length (period : ℤ) (g l : List ℚ) :
    ∀ (idxs : List ℕ) (avg? : Option (ℚ × ℚ)), (rsiGo period g l avg? idxs).length = idxs.length := by
  intro idxs
  induction idxs with
  | nil => intro avg?; cases avg? <;> rfl
  | cons i rest ih =>
    intro avg?
    simp only [rsiGo]
    split
    · simp [ih]
    · split
      · simp [ih]
      · match avg? with
        | some (ag, al) => simp [ih]
        | none => simp [ih]

theorem rsiGo_after (period : ℤ) (g l : List ℚ) :
    ∀ (n a : ℕ) (st : ℚ × ℚ), period < (a : ℤ) → ∀ j < n,
      ((rsiGo period g l (some st) (List.range' a n)).getD j none).isSome := by
  intro n
  induction n with
  | zero => intro a st ha j hj; omega
  | succ n' ih =>
    intro a st ha j hj
    rw [List.range'_succ]
    simp only [rsiGo]
    rw [if_neg (by omega), if_neg (by omega)]
    cases j with
    | zero => simp
    | succ j' =>
      simp only [List.getD_cons_succ]
      exact ih (a + 1) _ (by push_cast; omega) j' (by omega)

theorem rsiGo_before (period : ℤ) (g l : List ℚ) :
    ∀ (n a : ℕ), (a : ℤ) ≤ period → ∀ (avg? : Option (ℚ × ℚ)) (j : ℕ), j < n →
      (((rsiGo period g l avg? (List.range' a n)).getD j none).isSome ↔ period ≤ (a : ℤ) + j) := by
  intro n
  induction n with
  | zero => intro a ha avg? j hj; omega
  | succ n' ih =>
    intro a ha avg? j hj
    rw [List.range'_succ]
    simp only [rsiGo]
    by_cases hlt : (a : ℤ) < period
    · rw [if_pos hlt]
      cases j with
      | zero => simp; omega
      | succ j' =>
        simp only [List.getD_cons_succ]
        rw [ih (a + 1) (by omega) avg? j' (by omega)]
        constructor <;> intro h2 <;> push_cast at * <;> omega
    · have heq : (a : ℤ) = period := by omega
      rw [if_neg hlt, if_pos heq]
      cases j with
      | zero => simp; omega
      | succ j' =>
        simp only [List.getD_cons_succ]
        refine ⟨fun h2 => by omega, fun h2 => ?_⟩
        exact rsiGo_after period g l n' (a + 1) _ (by push_cast; omega) j' (by omega)

theorem rsiCore_length (series : List ℚ) (period : ℤ) :
    (rsiCore series period).length = series.length := by
  cases series with
  | nil => rfl
  | cons p rest => simp [rsiCore, rsiGo_length]

theorem rsiCore_isSome (series : List ℚ) (period : ℤ) (hp : 1 ≤ period)
    (i : ℕ) (hi : i < series.length) :
    (((rsiCore series period).getD i none).isSome ↔ period ≤ (i : ℤ)) := by
  cases series with
  | nil => simp at hi
  | cons p rest =>
    cases i with
    | zero => simp [rsiCore]; omega
    | succ j =>
      simp only [rsiCore, List.getD_cons_succ]
      have hlen : (p :: rest).length - 1 = rest.length := by simp
      rw [hlen]
      rw [rsiGo_before period _ _ rest.length 1 (by omega) none j (by simpa using hi)]
      constructor <;> intro h2 <;> push_cast at * <;> omega

theorem atrGo_after (period : ℤ) (tr : List ℚ) :
    ∀ (n a : ℕ) (st : ℚ), period ≤ (a : ℤ) →
      ∃ out, atrGo period tr (some st) (List.range' a n) = .ok out ∧ out.length = n ∧
        ∀ j < n, ((out.getD j none).isSome) := by
  intro n
  induction n with
  | zero => intro a st ha; exact ⟨[], rfl, rfl, by omega⟩
  | succ n' ih =>
    intro a st ha
    rw [List.range'_succ]
    simp only [atrGo]
    rw [if_neg (by omega), if_pos (by omega)]
    obtain ⟨out, hout, hlen, hsome⟩ := ih (a + 1) ((st * ((period : ℚ) - 1) + tr.getD a 0) / (period : ℚ)) (by push_cast; omega)
    refine ⟨_, by rw [hout]; rfl, by simpa using hlen, ?_⟩
    intro j hj
    cases j with
    | zero => simp
    | succ j' => simpa using hsome j' (by omega)

theorem atrGo_before (period : ℤ) (tr : List ℚ) :
    ∀ (n a : ℕ), (a : ℤ) ≤ period - 1 → ∀ (avg? : Option ℚ),
      ∃ out, atrGo period tr avg? (List.range' a n) = .ok out ∧ out.length = n ∧
        ∀ j < n, (((out.getD j none).isSome) ↔ period - 1 ≤ (a : ℤ) + j) := by
  intro n
  induction n with
  | zero => intro a ha avg?; exact ⟨[], rfl, rfl, by omega⟩
  | succ n' ih =>
    intro a ha avg?
    rw [List.range'_succ]
    simp only [atrGo]
    by_cases heq : (a : ℤ) = period - 1
    · rw [if_pos heq]
      obtain ⟨out, hout, hlen, hsome⟩ :=
        atrGo_after period tr n' (a + 1) ((tr.take period.toNat).sum / (period : ℚ)) (by push_cast; omega)
      refine ⟨_, by rw [hout]; rfl, by simpa using hlen, ?_⟩
      intro j hj
      cases j with
      | zero => simp; omega
      | succ j' =>
        simp only [List.getD_cons_succ]
        refine ⟨fun h2 => by omega, fun h2 => hsome j' (by omega)⟩
    · rw [if_neg heq, if_neg (by omega)]
      obtain ⟨out, hout, hlen, hsome⟩ := ih (a + 1) (by omega) avg?
      refine ⟨_, by rw [hout]; rfl, by simpa using hlen, ?_⟩
      intro j hj
      cases j with
      | zero => simp; omega
      | succ j' =>
        simp only [List.getD_cons_succ]
        rw [hsome j' (by omega)]
        constructor <;> intro h2 <;> push_cast at * <;> omega

theorem atr_ok_char (high low close : List ℚ) (period : ℤ) (hp : 1 ≤ period)
    (h1 : high.length = low.length) (h2 : low.length = close.length) :
    ∃ la, atr high low close period = .ok la ∧ la.length = close.length ∧
      ∀ i < close.length, (((la.getD i none).isSome) ↔ period - 1 ≤ (i : ℤ)) := by
  by_cases hn : close.length = 0
  · refine ⟨[], ?_, by simp [hn], by omega⟩
    simp [atr, h1, h2, hn]
  · obtain ⟨out, hout, hlen, hsome⟩ :=
      atrGo_before period (trOf high low close) close.length 0 (by omega) none
    refine ⟨out, ?_, hlen, ?_⟩
    · rw [atr, if_neg (by simp [h1, h2]), if_neg hn, List.range_eq_range']
      exact hout
    · intro i hi
      simpa using hsome i hi

/-- C2 counterexample: with period `p = 1` and the non-empty series `[1, 2]`,
index `0` satisfies `0 ≥ p - 1` yet the EMA output at index 0 is `None`
(the seed element is always emitted as undefined), so the claim as stated
fails for EMA. -/
theorem c2_counterexample : ema [(1 : ℚ), 2] 1 = Except.ok [none, some 2] := by
  norm_num [ema, emaCoreL, emaGo]

/-- C2 (amended): for every period `p ≥ 1` and non-empty input series,
RSI is undefined exactly at indices `< p`, ATR is undefined exactly at
indices `< p - 1`, and EMA is undefined exactly at index 0 (the seed) and at
indices `< p - 1` — i.e. EMA is defined exactly from index `max 1 (p-1)` on,
not from `p - 1` on as originally claimed. -/
theorem c2_thm (p : ℤ) (hp : 1 ≤ p) (series high low close : List ℚ)
    (_hs : series ≠ []) (h1 : high.length = low.length) (h2 : low.length = close.length)
    (_hc : close ≠ []) :
    ema series p = .ok (emaCoreL series p) ∧
    (emaCoreL series p).length = series.length ∧
    (∀ i, i < series.length →
      (((emaCoreL series p).getD i none).isSome ↔ (1 ≤ i ∧ p - 1 ≤ (i : ℤ)))) ∧
    rsi series p = .ok (rsiCore series p) ∧
    (rsiCore series p).length = series.length ∧
    (∀ i, i < series.length → (((rsiCore series p).getD i none).isSome ↔ p ≤ (i : ℤ))) ∧
    (∃ la, atr high low close p = .ok la ∧ la.length = close.length ∧
      ∀ i, i < close.length → (((la.getD i none).isSome) ↔ p - 1 ≤ (i : ℤ))) := by
  refine ⟨?_, emaCoreL_length series p, ?_, ?_, rsiCore_length series p, ?_, ?_⟩
  · rw [ema, if_neg (by omega)]
  · intro i hi; exact emaCoreL_isSome series p i hi
  · rw [rsi, if_neg (by omega)]
  · intro i hi; exact rsiCore_isSome series p hp i hi
  · obtain ⟨la, hla, hlen, hchar⟩ := atr_ok_char high low close p hp h1 h2
    exact ⟨la, hla, hlen, fun i hi => hchar i hi⟩

/-- Witness for C2's amended theorem at `p = 2` and concrete series. -/
theorem c2_thm_witness : ema [(1 : ℚ), 2, 3] 2 = .ok (emaCoreL [(1 : ℚ), 2, 3] 2) :=
  (c2_thm 2 (by norm_num) [1, 2, 3] [1, 2] [0, 1] [1, 2]
    (by simp) (by simp) (by simp) (by simp)).1

/-- Swing kinds of `swing.detect_swings` (the source's 'high' / 'low' literals). -/
inductive SwingKind where
  | high
  | low
deriving DecidableEq, Repr

/-- A detected swing `(index, value, type)` of `swing.detect_swings`. -/
structure Swing where
  idx : ℕ
  value : ℚ
  kind : SwingKind
deriving DecidableEq, Repr

/-- The `w` values to the left of index `i`: Python `values[i - w : i]`
(full length `w` whenever `w ≤ i`). -/
def leftNbrs (values : List ℚ) (i w : ℕ) : List ℚ :=
  (values.drop (i - w)).take w

/-- The `w` values to the right of index `i`: Python `values[i + 1 : i + 1 + w]`
(full length `w` whenever `i + w < values.length`). -/
def rightNbrs (values : List ℚ) (i w : ℕ) : List ℚ :=
  (values.drop (i + 1)).take w

/-- Loop body of `swing.detect_swings` at index `i` (indices outside
`range(lookback, n - lookback)` produce nothing). -/
def swingAt (values : List ℚ) (w : ℕ) (i : ℕ) : Option Swing :=
  if w ≤ i ∧ i + w < values.length then
    if (leftNbrs values i w).all (fun x => decide (x < values.getD i 0)) &&
        (rightNbrs values i w).all (fun x => decide (x < values.getD i 0)) then
      some ⟨i, values.getD i 0, .high⟩
    else if (leftNbrs values i w).all (fun x => decide (values.getD i 0 < x)) &&
        (rightNbrs values i w).all (fun x => decide (values.getD i 0 < x)) then
      some ⟨i, values.getD i 0, .low⟩
    else none
  else none

/-- Body of `swing.detect_swings` after the lookback guard. -/
def swingsCore (values : List ℚ) (w : ℕ) : List Swing :=
  (List.range values.length).filterMap (swingAt values w)

/-- `swing.detect_swings`: raises ValueError when `lookback < 1`. -/
def detect_swings (values : List ℚ) (lookback : ℤ) : Except PyErr (List Swing) :=
  if lookback < 1 then .error .valueError
  else .ok (swingsCore values lookback.toNat)

theorem swingAt_idx (values : List ℚ) (w i : ℕ) (s : Swing)
    (h : swingAt values w i = some s) : s.idx = i := by
  unfold swingAt at h
  split at h
  · split at h
    · cases h; rfl
    · split at h
      · cases h; rfl
      · cases h
  · cases h

theorem leftNbrs_length (values : List ℚ) (i w : ℕ) (h1 : w ≤ i) (h2 : i ≤ values.length) :
    (leftNbrs values i w).length = w := by
  simp [leftNbrs]
  omega

theorem rightNbrs_length (values : List ℚ) (i w : ℕ) (h2 : i + w < values.length) :
    (rightNbrs values i w).length = w := by
  simp [rightNbrs]
  omega

theorem mem_swingsCore_high (values : List ℚ) (w : ℕ) (i : ℕ) (v : ℚ) (hw : 1 ≤ w) :
    ((⟨i, v, .high⟩ : Swing) ∈ swingsCore values w ↔
      (w ≤ i ∧ i + w < values.length ∧ v = values.getD i 0 ∧
        (∀ x ∈ leftNbrs values i w, x < v) ∧ (∀ x ∈ rightNbrs values i w, x < v))) := by
  constructor
  · intro h
    obtain ⟨i', _, hf⟩ := List.mem_filterMap.1 h
    have hidx := swingAt_idx values w i' _ hf
    simp only at hidx
    subst hidx
    unfold swingAt at hf
    split at hf
    · rename_i hcond
      split at hf
      · rename_i hall
        cases hf
        rw [Bool.and_eq_true, List.all_eq_true, List.all_eq_true] at hall
        refine ⟨hcond.1, hcond.2, rfl, ?_, ?_⟩
        · intro x hx; simpa using hall.1 x hx
        · intro x hx; simpa using hall.2 x hx
      · split at hf
        · cases hf
        · cases hf
    · cases hf
  · rintro ⟨h1, h2, h3, h4, h5⟩
    refine List.mem_filterMap.2 ⟨i, List.mem_range.2 (by omega), ?_⟩
    unfold swingAt
    rw [if_pos ⟨h1, h2⟩]
    have hall : ((leftNbrs values i w).all (fun x => decide (x < values.getD i 0)) &&
        (rightNbrs values i w).all (fun x => decide (x < values.getD i 0))) = true := by
      rw [Bool.and_eq_true, List.all_eq_true, List.all_eq_true]
      subst h3
      exact ⟨fun x hx => by simpa using h4 x hx, fun x hx => by simpa using h5 x hx⟩
    rw [if_pos hall]
    subst h3
    rfl

theorem mem_swingsCore_low (values : List ℚ) (w : ℕ) (i : ℕ) (v : ℚ) (hw : 1 ≤ w) :
    ((⟨i, v, .low⟩ : Swing) ∈ swingsCore values w ↔
      (w ≤ i ∧ i + w < values.length ∧ v = values.getD i 0 ∧
        (∀ x ∈ leftNbrs values i w, v < x) ∧ (∀ x ∈ rightNbrs values i w, v < x))) := by
  constructor
  · intro h
    obtain ⟨i', _, hf⟩ := List.mem_filterMap.1 h
    have hidx := swingAt_idx values w i' _ hf
    simp only at hidx
    subst hidx
    unfold swingAt at hf
    split at hf
    · rename_i hcond
      split at hf
      · cases hf
      · split at hf
        · rename_i hall
          cases hf
          rw [Bool.and_eq_true, List.all_eq_true, List.all_eq_true] at hall
          refine ⟨hcond.1, hcond.2, rfl, ?_, ?_⟩
          · intro x hx; simpa using hall.1 x hx
          · intro x hx; simpa using hall.2 x hx
        · cases hf
    · cases hf
  · rintro ⟨h1, h2, h3, h4, h5⟩
    refine List.mem_filterMap.2 ⟨i, List.mem_range.2 (by omega), ?_⟩
    unfold swingAt
    rw [if_pos ⟨h1, h2⟩]
    have hne : ¬(((leftNbrs values i w).all (fun x => decide (x < values.getD i 0)) &&
        (rightNbrs values i w).all (fun x => decide (x < values.getD i 0))) = true) := by
      rw [Bool.and_eq_true, List.all_eq_true, List.all_eq_true]
      rintro ⟨hl, -⟩
      have hlen := leftNbrs_length values i w h1 (by omega)
      have hnonempty : leftNbrs values i w ≠ [] := by
        intro hcontra
        rw [hcontra] at hlen
        simp at hlen
        omega
      obtain ⟨x0, rest, hx0⟩ := List.exists_cons_of_ne_nil hnonempty
      have hx0mem : x0 ∈ leftNbrs values i w := by rw [hx0]; exact List.mem_cons_self x0 rest
      have hlt := h4 x0 hx0mem
      have hgt : x0 < values.getD i 0 := by simpa using hl x0 hx0mem
      subst h3
      exact absurd hgt (by push_neg; exact le_of_lt hlt)
    rw [if_neg hne]
    have hall : ((leftNbrs values i w).all (fun x => decide (values.getD i 0 < x)) &&
        (rightNbrs values i w).all (fun x => decide (values.getD i 0 < x))) = true := by
      rw [Bool.and_eq_true, List.all_eq_true, List.all_eq_true]
      subst h3
      exact ⟨fun x hx => by simpa using h4 x hx, fun x hx => by simpa using h5 x hx⟩
    rw [if_pos hall]
    subst h3
    rfl

theorem filterMap_swings_pairwise (f : ℕ → Option Swing)
    (hidx : ∀ i s, f i = some s → s.idx = i) :
    ∀ l : List ℕ, l.Pairwise (· < ·) →
      (l.filterMap f).Pairwise (fun a b => a.idx < b.idx) := by
  intro l
  induction l with
  | nil => intro; simp
  | cons i rest ih =>
    intro hp
    rw [List.pairwise_cons] at hp
    rw [List.filterMap_cons]
    cases hf : f i with
    | none => exact ih hp.2
    | some s =>
      refine List.Pairwise.cons ?_ (ih hp.2)
      intro t ht
      obtain ⟨j, hj, hfj⟩ := List.mem_filterMap.1 ht
      rw [hidx i s hf, hidx j t hfj]
      exact hp.1 j hj

theorem swingsCore_pairwise (values : List ℚ) (w : ℕ) :
    (swingsCore values w).Pairwise (fun a b => a.idx < b.idx) :=
  filterMap_swings_pairwise (swingAt values w) (swingAt_idx values w)
    (List.range values.length) (List.pairwise_lt_range values.length)

/-- C3 (confirmed): for every series and lookback `w ≥ 1`, the swing detector
reports `i` as a swing high iff `values[i]` is strictly greater than all `w`
left neighbors and all `w` right neighbors (which must exist), as a swing low
iff strictly smaller than all of them; no swing is reported when any neighbor
in the window equals the candidate value, and the output is ordered by index. -/
theorem c3_thm (values : List ℚ) (w : ℤ) (hw : 1 ≤ w) :
    detect_swings values w = .ok (swingsCore values w.toNat) ∧
    (∀ i v, ((⟨i, v, .high⟩ : Swing) ∈ swingsCore values w.toNat ↔
      (w.toNat ≤ i ∧ i + w.toNat < values.length ∧ v = values.getD i 0 ∧
        (∀ x ∈ leftNbrs values i w.toNat, x < v) ∧
        (∀ x ∈ rightNbrs values i w.toNat, x < v)))) ∧
    (∀ i v, ((⟨i, v, .low⟩ : Swing) ∈ swingsCore values w.toNat ↔
      (w.toNat ≤ i ∧ i + w.toNat < values.length ∧ v = values.getD i 0 ∧
        (∀ x ∈ leftNbrs values i w.toNat, v < x) ∧
        (∀ x ∈ rightNbrs values i w.toNat, v < x)))) ∧
    (∀ s ∈ swingsCore values w.toNat, ∀ x,
      (x ∈ leftNbrs values s.idx w.toNat ∨ x ∈ rightNbrs values s.idx w.toNat) →
        x ≠ s.value) ∧
    (swingsCore values w.toNat).Pairwise (fun a b => a.idx < b.idx) := by
  have hw' : 1 ≤ w.toNat := by omega
  refine ⟨?_, fun i v => mem_swingsCore_high values w.toNat i v hw',
    fun i v => mem_swingsCore_low values w.toNat i v hw', ?_, swingsCore_pairwise values w.toNat⟩
  · rw [detect_swings, if_neg (by omega)]
  · rintro ⟨i, v, k⟩ hmem x hx
    cases k with
    | high =>
      obtain ⟨-, -, -, h4, h5⟩ := (mem_swingsCore_high values w.toNat i v hw').1 hmem
      rcases hx with hl | hr
      · exact ne_of_lt (h4 x hl)
      · exact ne_of_lt (h5 x hr)
    | low =>
      obtain ⟨-, -, -, h4, h5⟩ := (mem_swingsCore_low values w.toNat i v hw').1 hmem
      rcases hx with hl | hr
      · exact ne_of_gt (h4 x hl)
      · exact ne_of_gt (h5 x hr)

/-- Witness for C3 at the concrete series `[0, 1, 0]` with lookback 1. -/
theorem c3_thm_witness :
    detect_swings [(0 : ℚ), 1, 0] 1 = .ok (swingsCore [(0 : ℚ), 1, 0] 1) :=
  (c3_thm [(0 : ℚ), 1, 0] 1 (by norm_num)).1

/-- Divergence classifications of `divergence.detect_divergence`, a closed
enumeration of the source's five string literals. -/
inductive DivType where
  | BearishRegular
  | BullishRegular
  | BearishHidden
  | BullishHidden
  | NoDivergence
deriving DecidableEq, Repr

/-- First component of Python's sort key `(0 if "Regular" in x[0] else 1, -x[1])`. -/
def catRank : DivType → ℤ
  | .BearishRegular => 0
  | .BullishRegular => 0
  | .BearishHidden => 1
  | .BullishHidden => 1
  | .NoDivergence => 1

/-- Whether the class name contains the substring Bullish
(`sig_bit = 1 if "Bullish" in out_type else 0`). -/
def isBullish (t : DivType) : Prop := t = .BullishRegular ∨ t = .BullishHidden

instance (t : DivType) : Decidable (isBullish t) := by
  unfold isBullish
  infer_instance

/-- Strict comparison of candidates under Python's sort key
`(0 if Regular else 1, -score)`: `a` sorts strictly before `b`. -/
def candLtB (a b : DivType × ℤ) : Bool :=
  decide (catRank a.1 < catRank b.1) ||
    (decide (catRank a.1 = catRank b.1) && decide (b.2 < a.2))

/-- Stable insertion: `x` is placed after exactly the earlier elements that
sort strictly before it, which reproduces Python's stable `list.sort`. -/
def insertCand (x : DivType × ℤ) : List (DivType × ℤ) → List (DivType × ℤ)
  | [] => [x]
  | y :: ys => if candLtB y x then y :: insertCand x ys else x :: y :: ys

/-- Stable sort by Python's key `(0 if Regular else 1, -score)`; extensionally
identical to `candidates.sort(key=...)`, which is also a stable ascending sort. -/
def sortCands : List (DivType × ℤ) → List (DivType × ℤ)
  | [] => []
  | x :: xs => insertCand x (sortCands xs)

/-- `amp_ratio` of `divergence.detect_divergence`:
`abs((a - b) / denom)` with `denom = abs(b) if b != 0 else 1.0`. -/
def ampRat (a b : ℚ) : ℚ :=
  |(a - b) / (if b ≠ 0 then |b| else 1)|

/-- `divergence._score`: base score from fixed amplitude thresholds, bumped by
one (still capped at 5) for a swing separation of at least 10. -/
def divScore (amplitude : ℚ) (separation : ℤ) : ℤ :=
  let s1 : ℤ := 1
  let s2 : ℤ := if 1 / 100 ≤ amplitude then 2 else s1
  let s3 : ℤ := if 2 / 100 ≤ amplitude then 3 else s2
  let s4 : ℤ := if 4 / 100 ≤ amplitude then 4 else s3
  let s5 : ℤ := if 8 / 100 ≤ amplitude then 5 else s4
  let s6 : ℤ := if 10 ≤ separation ∧ s5 < 5 then s5 + 1 else s5
  min s6 5

/-- A scored candidate `(dtype, _score(amp, sep))`. -/
def cand (t : DivType) (a : ℚ) (sep : ℤ) : DivType × ℤ := (t, divScore a sep)

/-- Forward fill of `divergence.detect_divergence`: an undefined indicator
value becomes the last defined value, or 0.0 before any defined value. -/
def fillGo (last : Option ℚ) : List (Option ℚ) → List ℚ
  | [] => []
  | some v :: rest => v :: fillGo (some v) rest
  | none :: rest => (match last with | some l => l | none => 0) :: fillGo last rest

/-- `indicator_vals` after the forward-fill loop. -/
def fillIndicator (indicator : List (Option ℚ)) : List ℚ :=
  fillGo none indicator

/-- `divergence._last_two_swings`: the last two swings of the given kind,
in index order, when at least two exist. -/
def lastTwoSwings (swings : List Swing) (k : SwingKind) : Option (Swing × Swing) :=
  let filt := swings.filter (fun s => decide (s.kind = k))
  match filt.drop (filt.length - 2) with
  | [a, b] => some (a, b)
  | _ => none

/-- Stage-1 candidates from the price/indicator high swing pairs. -/
def hiCands : Option (Swing × Swing) → Option (Swing × Swing) → List (DivType × ℤ)
  | some (s1, s2), some (t1, t2) =>
    (if s1.value < s2.value ∧ t2.value < t1.value then
      [cand .BearishRegular (ampRat s2.value s1.value + ampRat t2.value t1.value)
        (min ((s2.idx : ℤ) - s1.idx) ((t2.idx : ℤ) - t1.idx))] else []) ++
    (if s2.value < s1.value ∧ t1.value < t2.value then
      [cand .BearishHidden (ampRat s2.value s1.value + ampRat t2.value t1.value)
        (min ((s2.idx : ℤ) - s1.idx) ((t2.idx : ℤ) - t1.idx))] else [])
  | _, _ => []

/-- Stage-1 candidates from the price/indicator low swing pairs. -/
def loCands : Option (Swing × Swing) → Option (Swing × Swing) → List (DivType × ℤ)
  | some (s1, s2), some (t1, t2) =>
    (if s2.value < s1.value ∧ t1.value < t2.value then
      [cand .BullishRegular (ampRat s2.value s1.value + ampRat t2.value t1.value)
        (min ((s2.idx : ℤ) - s1.idx) ((t2.idx : ℤ) - t1.idx))] else []) ++
    (if s1.value < s2.value ∧ t2.value < t1.value then
      [cand .BullishHidden (ampRat s2.value s1.value + ampRat t2.value t1.value)
        (min ((s2.idx : ℤ) - s1.idx) ((t2.idx : ℤ) - t1.idx))] else [])
  | _, _ => []

/-- Minimum of `indicator_vals[max(0,c-w) : min(n,c+w+1)]`, defaulting to the
value at `c` when the window is empty (`min(...) if j < k else vals[c]`). -/
def windowMin (ivals : List ℚ) (c w : ℕ) : ℚ :=
  match (ivals.drop (c - w)).take (min ivals.length (c + w + 1) - (c - w)) with
  | [] => ivals.getD c 0
  | x :: xs => xs.foldl min x

/-- Maximum counterpart of `windowMin`. -/
def windowMax (ivals : List ℚ) (c w : ℕ) : ℚ :=
  match (ivals.drop (c - w)).take (min ivals.length (c + w + 1) - (c - w)) with
  | [] => ivals.getD c 0
  | x :: xs => xs.foldl max x

/-- Window-extremum fallback over the last two price lows. -/
def fbLo (ivals : List ℚ) (w : ℕ) : Option (Swing × Swing) → List (DivType × ℤ)
  | none => []
  | some (s1, s2) =>
    let j2 := s2.idx - w
    let k2 := min ivals.length (s2.idx + w + 1)
    let iv1 := windowMin ivals s1.idx w
    let iv2 := windowMin ivals s2.idx w
    (if s2.value < s1.value ∧ iv1 < iv2 then
      [cand .BullishRegular (ampRat s2.value s1.value + ampRat iv2 iv1)
        (min ((s2.idx : ℤ) - s1.idx) ((k2 : ℤ) - j2))] else []) ++
    (if s1.value < s2.value ∧ iv2 < iv1 then
      [cand .BullishHidden (ampRat s2.value s1.value + ampRat iv2 iv1)
        (min ((s2.idx : ℤ) - s1.idx) ((k2 : ℤ) - j2))] else [])

/-- Window-extremum fallback over the last two price highs. -/
def fbHi (ivals : List ℚ) (w : ℕ) : Option (Swing × Swing) → List (DivType × ℤ)
  | none => []
  | some (s1, s2) =>
    let j2 := s2.idx - w
    let k2 := min ivals.length (s2.idx + w + 1)
    let iv1 := windowMax ivals s1.idx w
    let iv2 := windowMax ivals s2.idx w
    (if s1.value < s2.value ∧ iv2 < iv1 then
      [cand .BearishRegular (ampRat s2.value s1.value + ampRat iv2 iv1)
        (min ((s2.idx : ℤ) - s1.idx) ((k2 : ℤ) - j2))] else []) ++
    (if s2.value < s1.value ∧ iv1 < iv2 then
      [cand .BearishHidden (ampRat s2.value s1.value + ampRat iv2 iv1)
        (min ((s2.idx : ℤ) - s1.idx) ((k2 : ℤ) - j2))] else [])

/-- Final non-strict fallback over the last two price lows. -/
def finalLo (ivals : List ℚ) : Option (Swing × Swing) → List (DivType × ℤ)
  | none => []
  | some (s1, s2) =>
    let iv1 := ivals.getD s1.idx 0
    let iv2 := ivals.getD s2.idx 0
    if s2.value ≤ s1.value ∧ iv1 ≤ iv2 then
      [cand .BullishRegular (ampRat s2.value s1.value + ampRat iv2 iv1)
        (max 1 ((s2.idx : ℤ) - s1.idx))]
    else []

/-- Final non-strict fallback over the last two price highs. -/
def finalHi (ivals : List ℚ) : Option (Swing × Swing) → List (DivType × ℤ)
  | none => []
  | some (s1, s2) =>
    let iv1 := ivals.getD s1.idx 0
    let iv2 := ivals.getD s2.idx 0
    if s1.value ≤ s2.value ∧ iv2 ≤ iv1 then
      [cand .BearishRegular (ampRat s2.value s1.value + ampRat iv2 iv1)
        (max 1 ((s2.idx : ℤ) - s1.idx))]
    else []

/-- The candidate list of `divergence.detect_divergence` with its staged
fallbacks (each later stage runs only while `candidates` is still empty). -/
def divergenceCandidates (prices : List ℚ) (indicator : List (Option ℚ)) (w : ℕ) :
    List (DivType × ℤ) :=
  let ivals := fillIndicator indicator
  let priceSwings := swingsCore prices w
  let indSwings := swingsCore ivals w
  let hp := lastTwoSwings priceSwings .high
  let hi := lastTwoSwings indSwings .high
  let lp := lastTwoSwings priceSwings .low
  let li := lastTwoSwings indSwings .low
  let c1 := hiCands hp hi ++ loCands lp li
  if c1 ≠ [] then c1 else
  let c2 := fbLo ivals w lp
  if c2 ≠ [] then c2 else
  let c3 := fbHi ivals w hp
  if c3 ≠ [] then c3 else
  let c4 := finalLo ivals lp
  if c4 ≠ [] then c4 else finalHi ivals hp

/-- `divergence.detect_divergence`: the lookback guard comes from the first
`detect_swings` call; an empty candidate set yields `(NoDivergence, 0, 0)`,
otherwise the stable sort's head wins and `sig_bit` is 1 iff its class name
contains Bullish. -/
def detect_divergence (prices : List ℚ) (indicator : List (Option ℚ)) (lookback : ℤ) :
    Except PyErr (DivType × ℤ × ℤ) :=
  if lookback < 1 then .error .valueError
  else
    match sortCands (divergenceCandidates prices indicator lookback.toNat) with
    | [] => .ok (.NoDivergence, 0, 0)
    | c :: _ => .ok (c.1, c.2, if isBullish c.1 then 1 else 0)

theorem candLtB_irrefl (a : DivType × ℤ) : candLtB a a = false := by
  simp [candLtB]

theorem candLtB_asymm (a b : DivType × ℤ) (h : candLtB a b = true) : candLtB b a = false := by
  simp only [candLtB, Bool.or_eq_false_iff, Bool.or_eq_true, Bool.and_eq_true,
    Bool.and_eq_false_iff, decide_eq_true_eq, decide_eq_false_iff_not] at *
  omega

theorem candLtB_false_trans (a b c : DivType × ℤ)
    (h1 : candLtB a b = false) (h2 : candLtB b c = false) : candLtB a c = false := by
  simp only [candLtB, Bool.or_eq_false_iff, Bool.and_eq_false_iff,
    decide_eq_false_iff_not] at *
  omega

theorem mem_insertCand (x : DivType × ℤ) :
    ∀ (l : List (DivType × ℤ)) (a : DivType × ℤ), a ∈ insertCand x l ↔ a = x ∨ a ∈ l := by
  intro l
  induction l with
  | nil => intro a; simp [insertCand]
  | cons y ys ih =>
    intro a
    simp only [insertCand]
    split <;> simp only [List.mem_cons, ih] <;> tauto

theorem insertCand_pairwise (x : DivType × ℤ) :
    ∀ (l : List (DivType × ℤ)), l.Pairwise (fun p q => candLtB q p = false) →
      (insertCand x l).Pairwise (fun p q => candLtB q p = false) := by
  intro l
  induction l with
  | nil => intro; simp [insertCand]
  | cons y ys ih =>
    intro hp
    rw [List.pairwise_cons] at hp
    obtain ⟨hy, hys⟩ := hp
    simp only [insertCand]
    cases hxy : candLtB y x with
    | true =>
      rw [if_pos rfl]
      refine List.Pairwise.cons ?_ (ih hys)
      intro z hz
      rcases (mem_insertCand x ys z).1 hz with hzx | hzys
      · subst hzx; exact candLtB_asymm y z hxy
      · exact hy z hzys
    | false =>
      rw [if_neg (by simp)]
      refine List.Pairwise.cons ?_ (List.Pairwise.cons hy hys)
      intro z hz
      rcases List.mem_cons.1 hz with hzy | hzys
      · subst hzy; exact hxy
      · exact candLtB_false_trans z y x (hy z hzys) hxy

theorem mem_sortCands (l : List (DivType × ℤ)) (a : DivType × ℤ) :
    a ∈ sortCands l ↔ a ∈ l := by
  induction l with
  | nil => simp [sortCands]
  | cons x xs ih =>
    simp only [sortCands, mem_insertCand, ih, List.mem_cons]

theorem sortCands_pairwise (l : List (DivType × ℤ)) :
    (sortCands l).Pairwise (fun p q => candLtB q p = false) := by
  induction l with
  | nil => simp [sortCands]
  | cons x xs ih => exact insertCand_pairwise x (sortCands xs) ih

theorem insertCand_ne_nil (x : DivType × ℤ) (l : List (DivType × ℤ)) :
    insertCand x l ≠ [] := by
  cases l with
  | nil => simp [insertCand]
  | cons y ys =>
    simp only [insertCand]
    split <;> simp

theorem sortCands_eq_nil_iff (l : List (DivType × ℤ)) : sortCands l = [] ↔ l = [] := by
  cases l with
  | nil => simp [sortCands]
  | cons x xs =>
    simp only [sortCands]
    constructor
    · intro h; exact absurd h (insertCand_ne_nil x (sortCands xs))
    · intro h; cases h

theorem sortCands_head_min (l : List (DivType × ℤ)) (c : DivType × ℤ)
    (rest : List (DivType × ℤ)) (h : sortCands l = c :: rest) :
    c ∈ l ∧ ∀ a ∈ l, candLtB a c = false := by
  constructor
  · have : c ∈ sortCands l := by rw [h]; exact List.mem_cons_self c rest
    exact (mem_sortCands l c).1 this
  · intro a ha
    have hmem : a ∈ sortCands l := (mem_sortCands l a).2 ha
    rw [h] at hmem
    rcases List.mem_cons.1 hmem with hac | harest
    · subst hac; exact candLtB_irrefl a
    · have hp := sortCands_pairwise l
      rw [h, List.pairwise_cons] at hp
      exact hp.1 a harest

/-- C4 (confirmed): the divergence detector is deterministic — identical
inputs always produce the identical result triple; the embedding of
`detect_divergence` is a pure function of `(prices, indicator, lookback)`
with no other state. -/
theorem c4_thm (p1 p2 : List ℚ) (i1 i2 : List (Option ℚ)) (l1 l2 : ℤ)
    (hp : p1 = p2) (hi : i1 = i2) (hl : l1 = l2) :
    detect_divergence p1 i1 l1 = detect_divergence p2 i2 l2 := by
  subst hp
  subst hi
  subst hl
  rfl

/-- Witness for C4 at a concrete input. -/
theorem c4_thm_witness :
    detect_divergence [(1 : ℚ), 2] [some 1, some 2] 1 =
      detect_divergence [(1 : ℚ), 2] [some 1, some 2] 1 :=
  c4_thm [(1 : ℚ), 2] [(1 : ℚ), 2] [some 1, some 2] [some 1, some 2] 1 1 rfl rfl rfl

/-- Score mapping exactly as the spec words it (the claim side of C6):
base score from the thresholds, then increment by one capped at 5 when the
separation is at least 10. -/
def scoreSpec (amplitude : ℚ) (separation : ℤ) : ℤ :=
  let base : ℤ :=
    if 8 / 100 ≤ amplitude then 5
    else if 4 / 100 ≤ amplitude then 4
    else if 2 / 100 ≤ amplitude then 3
    else if 1 / 100 ≤ amplitude then 2
    else 1
  if 10 ≤ separation then min (base + 1) 5 else base

theorem divScore_bounds (a : ℚ) (s : ℤ) : 1 ≤ divScore a s ∧ divScore a s ≤ 5 := by
  simp only [divScore]
  split_ifs <;> omega

theorem mem_ite_cand {P : Prop} [Decidable P] {t : DivType} {a : ℚ} {s : ℤ}
    {c : DivType × ℤ} (h : c ∈ (if P then [cand t a s] else [])) :
    ∃ a2 s2, c.2 = divScore a2 s2 := by
  split at h
  · rw [List.mem_singleton] at h
    exact ⟨a, s, by rw [h]; rfl⟩
  · simp at h

theorem mem_hiCands_score (hp hi : Option (Swing × Swing)) (c : DivType × ℤ)
    (h : c ∈ hiCands hp hi) : ∃ a s, c.2 = divScore a s := by
  cases hp with
  | none => simp [hiCands] at h
  | some p =>
    cases hi with
    | none => obtain ⟨s1, s2⟩ := p; simp [hiCands] at h
    | some q =>
      obtain ⟨s1, s2⟩ := p
      obtain ⟨t1, t2⟩ := q
      rcases List.mem_append.1 h with h2 | h2 <;> exact mem_ite_cand h2

theorem mem_loCands_score (lp li : Option (Swing × Swing)) (c : DivType × ℤ)
    (h : c ∈ loCands lp li) : ∃ a s, c.2 = divScore a s := by
  cases lp with
  | none => simp [loCands] at h
  | some p =>
    cases li with
    | none => obtain ⟨s1, s2⟩ := p; simp [loCands] at h
    | some q =>
      obtain ⟨s1, s2⟩ := p
      obtain ⟨t1, t2⟩ := q
      rcases List.mem_append.1 h with h2 | h2 <;> exact mem_ite_cand h2

theorem mem_fbLo_score (ivals : List ℚ) (w : ℕ) (lp : Option (Swing × Swing))
    (c : DivType × ℤ) (h : c ∈ fbLo ivals w lp) : ∃ a s, c.2 = divScore a s := by
  cases lp with
  | none => simp [fbLo] at h
  | some p =>
    obtain ⟨s1, s2⟩ := p
    simp only [fbLo] at h
    rcases List.mem_append.1 h with h2 | h2 <;> exact mem_ite_cand h2

theorem mem_fbHi_score (ivals : List ℚ) (w : ℕ) (hp : Option (Swing × Swing))
    (c : DivType × ℤ) (h : c ∈ fbHi ivals w hp) : ∃ a s, c.2 = divScore a s := by
  cases hp with
  | none => simp [fbHi] at h
  | some p =>
    obtain ⟨s1, s2⟩ := p
    simp only [fbHi] at h
    rcases List.mem_append.1 h with h2 | h2 <;> exact mem_ite_cand h2

theorem mem_finalLo_score (ivals : List ℚ) (lp : Option (Swing × Swing))
    (c : DivType × ℤ) (h : c ∈ finalLo ivals lp) : ∃ a s, c.2 = divScore a s := by
  cases lp with
  | none => simp [finalLo] at h
  | some p =>
    obtain ⟨s1, s2⟩ := p
    simp only [finalLo] at h
    exact mem_ite_cand h

theorem mem_finalHi_score (ivals : List ℚ) (hp : Option (Swing × Swing))
    (c : DivType × ℤ) (h : c ∈ finalHi ivals hp) : ∃ a s, c.2 = divScore a s := by
  cases hp with
  | none => simp [finalHi] at h
  | some p =>
    obtain ⟨s1, s2⟩ := p
    simp only [finalHi] at h
    exact mem_ite_cand h

theorem mem_divergenceCandidates_score (prices : List ℚ) (ind : List (Option ℚ)) (w : ℕ)
    (c : DivType × ℤ) (h : c ∈ divergenceCandidates prices ind w) :
    ∃ a s, c.2 = divScore a s := by
  simp only [divergenceCandidates] at h
  split at h
  · rcases List.mem_append.1 h with h2 | h2
    · exact mem_hiCands_score _ _ _ h2
    · exact mem_loCands_score _ _ _ h2
  · split at h
    · exact mem_fbLo_score _ _ _ _ h
    · split at h
      · exact mem_fbHi_score _ _ _ _ h
      · split at h
        · exact mem_finalLo_score _ _ _ h
        · exact mem_finalHi_score _ _ _ h

/-- C6 (confirmed): `_score` equals the spec's threshold table with the
separation bump capped at 5, every candidate score lies in `[1, 5]`, and the
score component of any `detect_divergence` result lies in `[0, 5]`. -/
theorem c6_thm :
    (∀ (a : ℚ) (s : ℤ), divScore a s = scoreSpec a s) ∧
    (∀ (a : ℚ) (s : ℤ), 1 ≤ divScore a s ∧ divScore a s ≤ 5) ∧
    (∀ (prices : List ℚ) (ind : List (Option ℚ)) (lb : ℤ) (t : DivType) (sc b : ℤ),
      detect_divergence prices ind lb = .ok (t, sc, b) → 0 ≤ sc ∧ sc ≤ 5) := by
  refine ⟨?_, divScore_bounds, ?_⟩
  · intro a s
    simp only [divScore, scoreSpec]
    split_ifs <;> omega
  · intro prices ind lb t sc b h
    unfold detect_divergence at h
    split at h
    · simp at h
    · split at h
      · cases h
        omega
      · rename_i c rest heq
        cases h
        obtain ⟨hmem, -⟩ := sortCands_head_min _ _ _ heq
        obtain ⟨a, s, hsc⟩ := mem_divergenceCandidates_score _ _ _ _ hmem
        have := divScore_bounds a s
        omega

/-- Witness for C6: applies the bound to the concrete no-divergence run. -/
theorem c6_thm_witness :
    detect_divergence [(1 : ℚ), 2] [some 1, some 2] 1 = .ok (.NoDivergence, 0, 0) ∧
    ((0 : ℤ) ≤ 0 ∧ (0 : ℤ) ≤ 5) :=
  ⟨by rfl, c6_thm.2.2 [(1 : ℚ), 2] [some 1, some 2] 1 .NoDivergence 0 0 (by rfl)⟩


theorem cex_fill : fillIndicator ([(0 : ℚ), 12, -2, 11, -1, 10, 0].map some) =
    [(0 : ℚ), 12, -2, 11, -1, 10, 0] := by decide

theorem cex_priceSwings : swingsCore [(0 : ℚ), 10, -1, 11, -2, 12, 0] 1 =
    [⟨1, 10, .high⟩, ⟨2, -1, .low⟩, ⟨3, 11, .high⟩, ⟨4, -2, .low⟩, ⟨5, 12, .high⟩] := by
  decide

theorem cex_indSwings : swingsCore [(0 : ℚ), 12, -2, 11, -1, 10, 0] 1 =
    [⟨1, 12, .high⟩, ⟨2, -2, .low⟩, ⟨3, 11, .high⟩, ⟨4, -1, .low⟩, ⟨5, 10, .high⟩] := by
  decide

theorem cex_cands :
    divergenceCandidates [(0 : ℚ), 10, -1, 11, -2, 12, 0]
        ([(0 : ℚ), 12, -2, 11, -1, 10, 0].map some) 1 =
      [(.BearishRegular, 5), (.BullishRegular, 5)] := by
  have hhp : lastTwoSwings
      [(⟨1, 10, .high⟩ : Swing), ⟨2, -1, .low⟩, ⟨3, 11, .high⟩, ⟨4, -2, .low⟩, ⟨5, 12, .high⟩]
      .high = some (⟨3, 11, .high⟩, ⟨5, 12, .high⟩) := by decide
  have hlp : lastTwoSwings
      [(⟨1, 10, .high⟩ : Swing), ⟨2, -1, .low⟩, ⟨3, 11, .high⟩, ⟨4, -2, .low⟩, ⟨5, 12, .high⟩]
      .low = some (⟨2, -1, .low⟩, ⟨4, -2, .low⟩) := by decide
  have hhi : lastTwoSwings
      [(⟨1, 12, .high⟩ : Swing), ⟨2, -2, .low⟩, ⟨3, 11, .high⟩, ⟨4, -1, .low⟩, ⟨5, 10, .high⟩]
      .high = some (⟨3, 11, .high⟩, ⟨5, 10, .high⟩) := by decide
  have hli : lastTwoSwings
      [(⟨1, 12, .high⟩ : Swing), ⟨2, -2, .low⟩, ⟨3, 11, .high⟩, ⟨4, -1, .low⟩, ⟨5, 10, .high⟩]
      .low = some (⟨2, -2, .low⟩, ⟨4, -1, .low⟩) := by decide
  simp only [divergenceCandidates, cex_fill, cex_priceSwings, cex_indSwings,
    hhp, hlp, hhi, hli, hiCands, loCands, cand]
  norm_num [ampRat, divScore, abs_of_pos, abs_of_nonneg]
  intro hcontra
  simp at hcontra

theorem cex_detect :
    detect_divergence [(0 : ℚ), 10, -1, 11, -2, 12, 0]
        ([(0 : ℚ), 12, -2, 11, -1, 10, 0].map some) 1 = .ok (.BearishRegular, 5, 0) := by
  unfold detect_divergence
  rw [if_neg (by norm_num), Int.toNat_one, cex_cands]
  rfl

/-- C7 counterexample: on this input the surviving candidate set is
`[(BearishRegular, 5), (BullishRegular, 5)]` — two distinct candidates of the
same category and the same score, so the claimed strict total order
(Regular before Hidden, then higher score) does not determine a unique
winner; the detector still deterministically returns `BearishRegular`
because the stable sort keeps the candidate that was generated first. -/
theorem c7_counterexample :
    divergenceCandidates [(0 : ℚ), 10, -1, 11, -2, 12, 0]
        ([(0 : ℚ), 12, -2, 11, -1, 10, 0].map some) 1 =
      [(.BearishRegular, 5), (.BullishRegular, 5)] ∧
    detect_divergence [(0 : ℚ), 10, -1, 11, -2, 12, 0]
        ([(0 : ℚ), 12, -2, 11, -1, 10, 0].map some) 1 = .ok (.BearishRegular, 5, 0) ∧
    candLtB (.BearishRegular, 5) (.BullishRegular, 5) = false ∧
    candLtB (.BullishRegular, 5) (.BearishRegular, 5) = false :=
  ⟨cex_cands, cex_detect, by decide, by decide⟩

/-- C7 (amended): whenever the candidate set is non-empty the detector
returns a unique deterministic winner that weakly dominates every candidate
under the order Regular-before-Hidden then higher-score-first (no candidate
strictly outranks it); candidates tied on both category and score are
resolved by generation order through the stable sort, so the preference is a
total preorder rather than a strict total order; `signal_bit` is 1 iff the
winning class name contains Bullish. -/
theorem c7_thm (prices : List ℚ) (ind : List (Option ℚ)) (lb : ℤ) (hlb : 1 ≤ lb)
    (t : DivType) (sc b : ℤ)
    (h : detect_divergence prices ind lb = .ok (t, sc, b))
    (hne : divergenceCandidates prices ind lb.toNat ≠ []) :
    (t, sc) ∈ divergenceCandidates prices ind lb.toNat ∧
    (∀ c ∈ divergenceCandidates prices ind lb.toNat, candLtB c (t, sc) = false) ∧
    b = (if isBullish t then 1 else 0) := by
  unfold detect_divergence at h
  rw [if_neg (by omega)] at h
  split at h
  · rename_i heq
    exact absurd ((sortCands_eq_nil_iff _).1 heq) hne
  · rename_i c rest heq
    obtain ⟨ct, cs⟩ := c
    cases h
    obtain ⟨hmem, hmin⟩ := sortCands_head_min _ _ _ heq
    exact ⟨hmem, hmin, rfl⟩

/-- Witness for C7's amended theorem at the two-candidate tie input. -/
theorem c7_thm_witness :
    (DivType.BearishRegular, (5 : ℤ)) ∈
      divergenceCandidates [(0 : ℚ), 10, -1, 11, -2, 12, 0]
        ([(0 : ℚ), 12, -2, 11, -1, 10, 0].map some) 1 :=
  (c7_thm [(0 : ℚ), 10, -1, 11, -2, 12, 0] ([(0 : ℚ), 12, -2, 11, -1, 10, 0].map some) 1
    (by norm_num) .BearishRegular 5 0 cex_detect
    (by rw [Int.toNat_one, cex_cands]; simp)).1

theorem lastTwoSwings_nil (k : SwingKind) : lastTwoSwings [] k = none := rfl

theorem hiCands_none (hi : Option (Swing × Swing)) : hiCands none hi = [] := by
  cases hi with
  | none => rfl
  | some q => obtain ⟨t1, t2⟩ := q; rfl

theorem loCands_none (li : Option (Swing × Swing)) : loCands none li = [] := by
  cases li with
  | none => rfl
  | some q => obtain ⟨t1, t2⟩ := q; rfl

/-- C10 (confirmed): with a price series too short to contain any swing
(`length ≤ 2 * lookback`), every stage of the divergence detector runs out
of price swing pairs, so the result is exactly `(NoDivergence, 0, 0)` and no
error is raised. -/
theorem c10_thm (w : ℤ) (prices : List ℚ) (ind : List (Option ℚ)) (hw : 1 ≤ w)
    (hlen : prices.length ≤ 2 * w.toNat) (_hind : ind.length = prices.length) :
    detect_divergence prices ind w = .ok (.NoDivergence, 0, 0) := by
  have hswings : swingsCore prices w.toNat = [] := by
    rw [swingsCore, List.filterMap_eq_nil_iff]
    intro i hi
    rw [List.mem_range] at hi
    unfold swingAt
    rw [if_neg (by omega)]
  have hcands : divergenceCandidates prices ind w.toNat = [] := by
    simp only [divergenceCandidates, hswings, lastTwoSwings_nil, hiCands_none, loCands_none,
      List.append_nil, fbLo, fbHi, finalLo, finalHi]
    simp
  unfold detect_divergence
  rw [if_neg (by omega), hcands]
  rfl

/-- Witness for C10 at a two-element series with lookback 1. -/
theorem c10_thm_witness :
    detect_divergence [(1 : ℚ), 2] [some 1, some 1] 1 = .ok (.NoDivergence, 0, 0) :=
  c10_thm 1 [(1 : ℚ), 2] [some 1, some 1] (by norm_num) (by decide) (by decide)

/-- Body of `indicators.macd_hist` after the argument guards: MACD line where
both EMAs are defined, signal line as EMA over the compacted defined MACD
values, histogram written back at the original positions. -/
def macdCore (series : List ℚ) (fast slow signal : ℤ) : List (Option ℚ) :=
  let ema_fast := emaCoreL series fast
  let ema_slow := emaCoreL series slow
  let macd_line : List (Option ℚ) :=
    ema_fast.zipWith
      (fun a b => match a, b with
        | some x, some y => some (x - y)
        | _, _ => none) ema_slow
  let pairs : List (ℕ × ℚ) :=
    macd_line.enum.filterMap (fun p => p.2.map (fun v => (p.1, v)))
  let signal_series := emaCoreL (pairs.map Prod.snd) signal
  (pairs.zip signal_series).foldl
    (fun h x => h.set x.1.1 (x.2.map (fun s => x.1.2 - s)))
    (List.replicate series.length none)

/-- `indicators.macd_hist`: ValueError on a non-positive period or when
`fast >= slow`. -/
def macd_hist (series : List ℚ) (fast slow signal : ℤ) : Except PyErr (List (Option ℚ)) :=
  if ¬(0 < fast ∧ 0 < slow ∧ 0 < signal) then .error .valueError
  else if slow ≤ fast then .error .valueError
  else .ok (macdCore series fast slow signal)

/-- `%K` entries of `indicators.stochastic_kd`; Python's `min()`/`max()` over
an empty window raise ValueError (reachable for `k_period <= 0`). -/
def stochK (high low close : List ℚ) (k_period : ℤ) : Except PyErr (List (Option ℚ)) :=
  exMap (fun (i : ℕ) =>
    if k_period ≤ (i : ℤ) + 1 then
      match pySlice low ((i : ℤ) - k_period + 1) ((i : ℤ) + 1),
          pySlice high ((i : ℤ) - k_period + 1) ((i : ℤ) + 1) with
      | l0 :: ls, h0 :: hs =>
        let window_low := ls.foldl min l0
        let window_high := hs.foldl max h0
        let denom := window_high - window_low
        pure (if denom = 0 then some 50 else some (100 * (close.getD i 0 - window_low) / denom))
      | _, _ => .error .valueError
    else pure none) (List.range close.length)

/-- `%D` entries of `indicators.stochastic_kd`: SMA over the last `d_period`
consecutive defined `%K` values; Python's division by `float(d_period)`
raises ZeroDivisionError when `d_period = 0` and the branch is reached. -/
def stochD (k_list : List (Option ℚ)) (d_period : ℤ) : Except PyErr (List (Option ℚ)) :=
  exMap (fun (i : ℕ) =>
    match k_list.getD i none with
    | none => pure none
    | some _ =>
      if d_period ≤ (i : ℤ) + 1 ∧
          (pySlice k_list ((i : ℤ) - d_period + 1) ((i : ℤ) + 1)).all Option.isSome then
        if (d_period : ℚ) = 0 then .error .zeroDivisionError
        else pure (some
          (((pySlice k_list ((i : ℤ) - d_period + 1) ((i : ℤ) + 1)).filterMap id).sum /
            (d_period : ℚ)))
      else pure none) (List.range k_list.length)

/-- `indicators.stochastic_kd`: validates only that the three series have
equal length. -/
def stochastic_kd (high low close : List ℚ) (k_period d_period : ℤ) :
    Except PyErr (List (Option ℚ) × List (Option ℚ)) :=
  if ¬(high.length = low.length ∧ low.length = close.length) then .error .valueError
  else if close.length = 0 then .ok ([], [])
  else
    match stochK high low close k_period with
    | .error e => .error e
    | .ok kl =>
      match stochD kl d_period with
      | .error e => .error e
      | .ok dl => .ok (kl, dl)

/-- `indicators.cci`: validates only that the three series have equal length;
`sum(window) / float(period)` raises ZeroDivisionError when `period = 0` and
the series is non-empty, and a negative period yields empty windows and a
zero deviation, hence 0.0 outputs with no error at all. -/
def cci (high low close : List ℚ) (period : ℤ) : Except PyErr (List (Option ℚ)) :=
  if ¬(high.length = low.length ∧ low.length = close.length) then .error .valueError
  else if close.length = 0 then .ok []
  else
    let tp : List ℚ := (List.range close.length).map
      (fun i => (high.getD i 0 + low.getD i 0 + close.getD i 0) / 3)
    exMap (fun (i : ℕ) =>
      if period ≤ (i : ℤ) + 1 then
        if (period : ℚ) = 0 then .error .zeroDivisionError
        else
          let window := pySlice tp ((i : ℤ) - period + 1) ((i : ℤ) + 1)
          let sma := window.sum / (period : ℚ)
          let md := (window.map (fun x => |x - sma|)).sum / (period : ℚ)
          let denom := (3 / 200 : ℚ) * md
          pure (if denom = 0 then some 0 else some ((tp.getD i 0 - sma) / denom))
      else pure none) (List.range close.length)

theorem exMap_ok {α β : Type} (f : α → Except PyErr β) :
    ∀ l : List α, (∀ a ∈ l, ∃ b, f a = .ok b) → ∃ out, exMap f l = .ok out := by
  intro l
  induction l with
  | nil => intro; exact ⟨[], rfl⟩
  | cons a l ih =>
    intro h
    obtain ⟨b, hb⟩ := h a (List.mem_cons_self a l)
    obtain ⟨out, hout⟩ := ih (fun x hx => h x (List.mem_cons_of_mem a hx))
    refine ⟨b :: out, ?_⟩
    simp only [exMap, hb, hout]
    rfl

theorem pySlice_ne_nil {α : Type} (xs : List α) (a b : ℤ) (_ha : 0 ≤ a) (hab : a < b)
    (hx : a.toNat < xs.length) : pySlice xs a b ≠ [] := by
  rw [← List.length_pos]
  simp only [pySlice, List.length_take, List.length_drop]
  omega

theorem stochK_ok (high low close : List ℚ) (k : ℤ) (hk : 1 ≤ k)
    (h1 : high.length = low.length) (h2 : low.length = close.length) :
    ∃ kl, stochK high low close k = .ok kl := by
  apply exMap_ok
  intro i hi
  rw [List.mem_range] at hi
  by_cases hcase : k ≤ (i : ℤ) + 1
  · rw [if_pos hcase]
    have hlo : pySlice low ((i : ℤ) - k + 1) ((i : ℤ) + 1) ≠ [] :=
      pySlice_ne_nil low _ _ (by omega) (by omega) (by omega)
    have hhi : pySlice high ((i : ℤ) - k + 1) ((i : ℤ) + 1) ≠ [] :=
      pySlice_ne_nil high _ _ (by omega) (by omega) (by omega)
    obtain ⟨l0, ls, hls⟩ := List.exists_cons_of_ne_nil hlo
    obtain ⟨h0, hs, hhs⟩ := List.exists_cons_of_ne_nil hhi
    rw [hls, hhs]
    exact ⟨_, rfl⟩
  · rw [if_neg hcase]
    exact ⟨none, rfl⟩

theorem stochD_ok (kl : List (Option ℚ)) (d : ℤ) (hd : 1 ≤ d) :
    ∃ dl, stochD kl d = .ok dl := by
  apply exMap_ok
  intro i hi
  cases hk : kl.getD i none with
  | none => exact ⟨none, rfl⟩
  | some v =>
    by_cases hcond : d ≤ (i : ℤ) + 1 ∧
        (pySlice kl ((i : ℤ) - d + 1) ((i : ℤ) + 1)).all Option.isSome
    · rw [if_pos hcond, if_neg (by exact_mod_cast (by omega : ¬d = 0))]
      exact ⟨_, rfl⟩
    · rw [if_neg hcond]
      exact ⟨none, rfl⟩

/-- C5 counterexample: `cci` with the structurally invalid period `-2` on
well-formed input returns a normal result (all-zero output) instead of
failing with InvalidArgument: negative periods make every window slice empty,
the mean absolute deviation is 0 / period = 0, so every defined entry is 0.0
and no error of any kind is raised. -/
theorem c5_counterexample : cci [(1 : ℚ)] [1] [1] (-2) = .ok [some 0] := by
  norm_num [cci, exMap, pySlice, List.range_succ,
    (show ((-2 : ℤ)).toNat = 0 from rfl), (show ((3 : ℤ)).toNat = 3 from rfl)]

/-- C5 (amended): `ema`, `rsi`, `macd_hist` and `detect_swings` fail with
InvalidArgument (ValueError) exactly on non-positive periods, `fast ≥ slow`,
or `lookback < 1`, and succeed otherwise; `stochastic_kd`, `cci` and `atr`
validate only the series-length match, failing with InvalidArgument exactly
on mismatched lengths, and never raise when the lengths match and their
periods are positive — but non-positive periods reach them unvalidated (see
the counterexample: `cci` with a negative period returns normally). -/
theorem c5_thm :
    (∀ (series : List ℚ) (p : ℤ), p ≤ 0 → ema series p = .error .valueError) ∧
    (∀ (series : List ℚ) (p : ℤ), 1 ≤ p → ema series p = .ok (emaCoreL series p)) ∧
    (∀ (series : List ℚ) (p : ℤ), p ≤ 0 → rsi series p = .error .valueError) ∧
    (∀ (series : List ℚ) (p : ℤ), 1 ≤ p → rsi series p = .ok (rsiCore series p)) ∧
    (∀ (series : List ℚ) (fast slow sig : ℤ),
      fast ≤ 0 ∨ slow ≤ 0 ∨ sig ≤ 0 ∨ slow ≤ fast →
        macd_hist series fast slow sig = .error .valueError) ∧
    (∀ (series : List ℚ) (fast slow sig : ℤ), 0 < fast → fast < slow → 0 < sig →
      macd_hist series fast slow sig = .ok (macdCore series fast slow sig)) ∧
    (∀ (high low close : List ℚ) (k d : ℤ),
      ¬(high.length = low.length ∧ low.length = close.length) →
        stochastic_kd high low close k d = .error .valueError) ∧
    (∀ (high low close : List ℚ) (k d : ℤ), high.length = low.length →
      low.length = close.length → 1 ≤ k → 1 ≤ d →
        ∃ r, stochastic_kd high low close k d = .ok r) ∧
    (∀ (high low close : List ℚ) (p : ℤ),
      ¬(high.length = low.length ∧ low.length = close.length) →
        cci high low close p = .error .valueError) ∧
    (∀ (high low close : List ℚ) (p : ℤ), high.length = low.length →
      low.length = close.length → 1 ≤ p → ∃ r, cci high low close p = .ok r) ∧
    (∀ (high low close : List ℚ) (p : ℤ),
      ¬(high.length = low.length ∧ low.length = close.length) →
        atr high low close p = .error .valueError) ∧
    (∀ (high low close : List ℚ) (p : ℤ), high.length = low.length →
      low.length = close.length → 1 ≤ p → ∃ r, atr high low close p = .ok r) ∧
    (∀ (values : List ℚ) (lb : ℤ), lb < 1 → detect_swings values lb = .error .valueError) ∧
    (∀ (values : List ℚ) (lb : ℤ), 1 ≤ lb →
      detect_swings values lb = .ok (swingsCore values lb.toNat)) := by
  refine ⟨?_, ?_, ?_, ?_, ?_, ?_, ?_, ?_, ?_, ?_, ?_, ?_, ?_, ?_⟩
  · intro series p hp; rw [ema, if_pos hp]
  · intro series p hp; rw [ema, if_neg (by omega)]
  · intro series p hp; rw [rsi, if_pos hp]
  · intro series p hp; rw [rsi, if_neg (by omega)]
  · intro series fast slow sig hbad
    by_cases hg : 0 < fast ∧ 0 < slow ∧ 0 < sig
    · rw [macd_hist, if_neg (not_not_intro hg), if_pos (by omega)]
    · rw [macd_hist, if_pos hg]
  · intro series fast slow sig h1 h2 h3
    rw [macd_hist, if_neg (not_not_intro ⟨h1, by omega, h3⟩), if_neg (by omega)]
  · intro high low close k d h; rw [stochastic_kd, if_pos h]
  · intro high low close k d h1 h2 hk hd
    rw [stochastic_kd, if_neg (not_not_intro ⟨h1, h2⟩)]
    by_cases hn : close.length = 0
    · rw [if_pos hn]; exact ⟨([], []), rfl⟩
    · rw [if_neg hn]
      obtain ⟨kl, hkl⟩ := stochK_ok high low close k hk h1 h2
      obtain ⟨dl, hdl⟩ := stochD_ok kl d hd
      exact ⟨(kl, dl), by rw [hkl]; dsimp only; rw [hdl]⟩
  · intro high low close p h; rw [cci, if_pos h]
  · intro high low close p h1 h2 hp
    rw [cci, if_neg (not_not_intro ⟨h1, h2⟩)]
    by_cases hn : close.length = 0
    · rw [if_pos hn]; exact ⟨[], rfl⟩
    · rw [if_neg hn]
      apply exMap_ok
      intro i hi
      by_cases hcase : p ≤ (i : ℤ) + 1
      · rw [if_pos hcase, if_neg (by exact_mod_cast (by omega : ¬p = 0))]
        exact ⟨_, rfl⟩
      · rw [if_neg hcase]
        exact ⟨none, rfl⟩
  · intro high low close p h; rw [atr, if_pos h]
  · intro high low close p h1 h2 hp
    obtain ⟨la, hla, -, -⟩ := atr_ok_char high low close p hp h1 h2
    exact ⟨la, hla⟩
  · intro values lb h; rw [detect_swings, if_pos h]
  · intro values lb h; rw [detect_swings, if_neg (by omega)]

/-- Witness for C5 at concrete invalid and valid arguments. -/
theorem c5_thm_witness :
    ema [(1 : ℚ)] 0 = .error .valueError ∧
    detect_swings [(1 : ℚ), 2, 3] 1 = .ok (swingsCore [(1 : ℚ), 2, 3] 1) :=
  ⟨c5_thm.1 [(1 : ℚ)] 0 (by norm_num),
    c5_thm.2.2.2.2.2.2.2.2.2.2.2.2.2 [(1 : ℚ), 2, 3] 1 (by norm_num)⟩

/-- OHLCV candle of `data_connector.Candle` (`ts` in unix milliseconds). -/
structure Candle where
  ts : ℤ
  open_ : ℚ
  high : ℚ
  low : ℚ
  close : ℚ
  volume : ℚ
deriving DecidableEq, Repr

/-- Private aggregation state of `data_connector.DataConnector`
(`_agg_open/_agg_high/_agg_low/_agg_volume/_bucket_start_ms`). -/
structure AggState where
  aggOpen : Option ℚ
  aggHigh : Option ℚ
  aggLow : Option ℚ
  aggVolume : ℚ
  bucketStartMs : Option ℤ
deriving DecidableEq, Repr

/-- Queue emissions of the aggregator, tagged by the emitting code path:
`final` comes from `_emit_agg`, `interim` from the in-bucket snapshot. -/
inductive Emit where
  | interim (c : Candle)
  | final (c : Candle)
deriving DecidableEq, Repr

/-- Fresh state of a `DataConnector`. -/
def initAgg : AggState :=
  { aggOpen := none, aggHigh := none, aggLow := none, aggVolume := 0, bucketStartMs := none }

/-- `DataConnector._emit_agg`: emits the aggregated candle (if a bucket is
open) with the caller-supplied timestamp and close, then resets the state. -/
def emit_agg (s : AggState) (ts_ms : ℤ) (close : ℚ) : AggState × List Emit :=
  match s.aggOpen with
  | none => (s, [])
  | some o =>
    let c : Candle :=
      { ts := ts_ms, open_ := o, high := s.aggHigh.getD o, low := s.aggLow.getD o,
        close := close, volume := s.aggVolume }
    (initAgg, [.final c])

/-- `DataConnector._handle_tick` for a fixed bucket width (the value of
`_bucket_ms()`; 60000 for timeframe "1min").  A tick at or beyond the bucket
end finalizes the open bucket at `bucket_end - 1` **with the new tick's price
as close**, reseeds the bucket and returns without an interim snapshot;
otherwise it updates the open bucket (the `aggHigh.getD 0` defaults are
unreachable: `_agg_high`/`_agg_low` are set whenever `_agg_open` is) and
emits an interim snapshot. -/
def handle_tick (bucket : ℤ) (s : AggState) (price : ℚ) (ts_ms : ℤ) (volume : ℚ) :
    AggState × List Emit :=
  let bs := match s.bucketStartMs with
    | some b => b
    | none => Int.ediv ts_ms bucket * bucket
  let s1 := { s with bucketStartMs := some bs }
  if bs + bucket ≤ ts_ms then
    let (s2, es) := emit_agg s1 (bs + bucket - 1) price
    ({ s2 with bucketStartMs := some (Int.ediv ts_ms bucket * bucket), aggOpen := some price,
               aggHigh := some price, aggLow := some price, aggVolume := volume }, es)
  else
    let s3 := match s1.aggOpen with
      | none => { s1 with aggOpen := some price, aggHigh := some price, aggLow := some price }
      | some _ =>
        { s1 with aggHigh := some (max (s1.aggHigh.getD 0) price),
                  aggLow := some (min (s1.aggLow.getD 0) price) }
    let s4 := { s3 with aggVolume := s3.aggVolume + volume }
    (s4, [.interim { ts := ts_ms, open_ := s3.aggOpen.getD 0, high := s3.aggHigh.getD 0,
                     low := s3.aggLow.getD 0, close := price, volume := s4.aggVolume }])

/-- Feeding a tick sequence `(price, ts_ms, volume)` through `_handle_tick`,
collecting all queue emissions in order. -/
def handle_ticks (bucket : ℤ) (s : AggState) : List (ℚ × ℤ × ℚ) → AggState × List Emit
  | [] => (s, [])
  | (price, ts, vol) :: rest =>
    let (s2, es) := handle_tick bucket s price ts vol
    let (s3, es2) := handle_ticks bucket s2 rest
    (s3, es ++ es2)

/-- C1 (code_bug evaluation): feeding `[(t0,100),(t0+500,101),(t0+60000,102)]`
at `t0 = 0` with a 1-minute bucket emits two interim snapshots and then
exactly one finalized candle for the first bucket, timestamped at
`bucket_end - 1` with `open=100, high=101, low=100` — but with `close = 102`,
the boundary-crossing tick's price (so `close > high`), not `close = 101` as
the claim and spec state; the third tick produces no interim snapshot. -/
theorem c1_code_eval :
    (handle_ticks 60000 initAgg [(100, 0, 0), (101, 500, 0), (102, 60000, 0)]).2 =
      [.interim { ts := 0, open_ := 100, high := 100, low := 100, close := 100, volume := 0 },
        .interim { ts := 500, open_ := 100, high := 101, low := 100, close := 101, volume := 0 },
        .final { ts := 59999, open_ := 100, high := 101, low := 100, close := 102, volume := 0 }]
    := by
  norm_num [handle_ticks, handle_tick, emit_agg, initAgg,
    (show Int.ediv 0 60000 = 0 from by decide), (show Int.ediv 500 60000 = 0 from by decide),
    (show Int.ediv 60000 60000 = 1 from by decide)]

/-- Reconnect events of `DataConnector._run_ws`: a failed connection attempt
(the `except` path) or a successful authenticate-and-subscribe (which resets
`backoff` to 1.0 before the message loop). -/
inductive WsEvent where
  | connectFail
  | connectOk
deriving DecidableEq, Repr

/-- One iteration of the reconnect loop acting on the `backoff` state,
returning the new state and the sleeps performed: a failure sleeps for the
current backoff and then doubles it capped at 30; a success resets it to 1. -/
def wsStep (backoff : ℚ) : WsEvent → ℚ × List ℚ
  | .connectFail => (min (backoff * 2) 30, [backoff])
  | .connectOk => (1, [])

/-- Folding the reconnect loop over an event history from a given backoff
state (initially 1.0), collecting all sleeps in order. -/
def wsRun (backoff : ℚ) : List WsEvent → ℚ × List ℚ
  | [] => (backoff, [])
  | e :: es =>
    let (b2, s) := wsStep backoff e
    let (b3, ss) := wsRun b2 es
    (b3, s ++ ss)

theorem wsRun_append (es fs : List WsEvent) :
    ∀ b : ℚ, wsRun b (es ++ fs) =
      ((wsRun (wsRun b es).1 fs).1, (wsRun b es).2 ++ (wsRun (wsRun b es).1 fs).2) := by
  induction es with
  | nil => intro b; simp [wsRun]
  | cons e es ih =>
    intro b
    simp only [List.cons_append, wsRun, List.append_eq, ih (wsStep b e).1, List.append_assoc]

theorem backoff_double_min (j : ℕ) :
    min (min ((2 : ℚ) ^ j) 30 * 2) 30 = min ((2 : ℚ) ^ (j + 1)) 30 := by
  rcases le_total ((2 : ℚ) ^ j) 30 with h | h
  · rw [min_eq_left h, pow_succ]
  · have h2 : (30 : ℚ) ≤ 2 ^ (j + 1) := by
      rw [pow_succ]
      nlinarith [pow_pos (by norm_num : (0 : ℚ) < 2) j]
    rw [min_eq_right h, min_eq_right (by norm_num : (30 : ℚ) ≤ 30 * 2), min_eq_right h2]

theorem wsRun_fail_sleeps (n : ℕ) :
    ∀ j : ℕ, (wsRun (min ((2 : ℚ) ^ j) 30) (List.replicate n .connectFail)).2 =
      (List.range n).map (fun k => min ((2 : ℚ) ^ (j + k)) 30) := by
  induction n with
  | zero => intro j; simp [wsRun]
  | succ n ih =>
    intro j
    rw [List.replicate_succ]
    simp only [wsRun, wsStep]
    rw [backoff_double_min j, ih (j + 1), List.range_succ_eq_map]
    simp only [List.map_cons, List.map_map, List.singleton_append]
    congr 1
    apply List.map_congr_left
    intro a _ha
    simp only [Function.comp_apply, Nat.succ_eq_add_one]
    have hexp : j + 1 + a = j + (a + 1) := by omega
    rw [hexp]

/-- C8 (confirmed): on repeated immediate connection failures the reconnect
loop's sleeps are `min(2^k, 30)` seconds — i.e. `1,2,4,8,16,30,30,...` — and
after any successful connection the backoff is reset so that the next
failure sleeps 1 second again. -/
theorem c8_thm :
    (∀ n : ℕ, (wsRun 1 (List.replicate n .connectFail)).2 =
      (List.range n).map (fun k => min ((2 : ℚ) ^ k) 30)) ∧
    (wsRun 1 (List.replicate 7 .connectFail)).2 = [1, 2, 4, 8, 16, 30, 30] ∧
    (∀ es : List WsEvent,
      (wsRun 1 (es ++ [.connectOk, .connectFail])).2 = (wsRun 1 es).2 ++ [1]) := by
  have hbase : ∀ n : ℕ, (wsRun 1 (List.replicate n .connectFail)).2 =
      (List.range n).map (fun k => min ((2 : ℚ) ^ k) 30) := by
    intro n
    have := wsRun_fail_sleeps n 0
    rw [show min ((2 : ℚ) ^ 0) 30 = 1 by norm_num] at this
    simpa using this
  refine ⟨hbase, ?_, ?_⟩
  · rw [hbase 7]
    norm_num [List.range_succ]
  · intro es
    rw [wsRun_append es [.connectOk, .connectFail] 1]
    norm_num [wsRun, wsStep]

/-- A subscriber of `signal_engine.BroadcastHub`: an asyncio queue (the inbox,
delivery order preserved) tagged with an identity, since Python distinguishes
queue objects by identity. -/
structure Subscriber (α : Type) where
  sid : ℕ
  inbox : List α
deriving DecidableEq, Repr

/-- `BroadcastHub.broadcast` under the hub lock: puts the message into the
queue of every subscriber currently in the list. -/
def broadcast {α : Type} (subs : List (Subscriber α)) (m : α) : List (Subscriber α) :=
  subs.map fun s => { s with inbox := s.inbox ++ [m] }

/-- `BroadcastHub.unsubscribe` under the hub lock: `if q in ...: remove(q)`,
i.e. remove the first subscriber with the given identity, if any. -/
def unsubscribe {α : Type} (subs : List (Subscriber α)) (q : ℕ) : List (Subscriber α) :=
  subs.eraseP (fun s => decide (s.sid = q))

theorem unsubscribe_sid_ne {α : Type} (q : ℕ) :
    ∀ subs : List (Subscriber α), (subs.map Subscriber.sid).Nodup →
      ∀ s ∈ unsubscribe subs q, s.sid ≠ q := by
  intro subs
  induction subs with
  | nil => intro _ s hs; simp [unsubscribe] at hs
  | cons a l ih =>
    intro hnodup s hs
    rw [List.map_cons, List.nodup_cons] at hnodup
    unfold unsubscribe at hs
    rw [List.eraseP_cons] at hs
    by_cases ha : a.sid = q
    · have hd : decide (a.sid = q) = true := by simpa using ha
      rw [hd] at hs
      simp only [Bool.cond_true] at hs
      intro hcontra
      exact hnodup.1 (by rw [ha, ← hcontra]; exact List.mem_map_of_mem Subscriber.sid hs)
    · have hd : decide (a.sid = q) = false := by simpa using ha
      rw [hd] at hs
      simp only [Bool.cond_false] at hs
      rcases List.mem_cons.1 hs with hsa | hsl
      · subst hsa; exact ha
      · exact ih hnodup.2 s hsl

/-- C9 (confirmed): a broadcast reaches all N of N current subscribers and
appends the message to each inbox exactly once (the count of the message in
an inbox rises by exactly one), and a subscriber unsubscribed before the
broadcast is no longer among the recipients — given distinct queue
identities, as Python guarantees for distinct `asyncio.Queue` objects — so
it receives nothing from that broadcast. -/
theorem c9_thm (α : Type) [DecidableEq α] (subs : List (Subscriber α)) (m : α) (q : ℕ) :
    (broadcast subs m).length = subs.length ∧
    (∀ k : ℕ, (broadcast subs m)[k]? =
      (subs[k]?).map (fun s => { s with inbox := s.inbox ++ [m] })) ∧
    (∀ (k : ℕ) (s s' : Subscriber α), subs[k]? = some s →
      (broadcast subs m)[k]? = some s' →
        s'.sid = s.sid ∧ s'.inbox.count m = s.inbox.count m + 1) ∧
    ((subs.map Subscriber.sid).Nodup →
      ∀ s' ∈ broadcast (unsubscribe subs q) m, s'.sid ≠ q) := by
  refine ⟨by simp [broadcast], ?_, ?_, ?_⟩
  · intro k
    simp [broadcast, List.getElem?_map]
  · intro k s s' hs hs'
    rw [broadcast, List.getElem?_map, hs] at hs'
    cases hs'
    exact ⟨rfl, by simp⟩
  · intro hnodup s' hs'
    obtain ⟨s, hsmem, hmap⟩ := List.mem_map.1 hs'
    have := unsubscribe_sid_ne q subs hnodup s hsmem
    rw [← hmap]
    exact this

/-- Witness for C9: subscriber 0's inbox after a broadcast to two
subscribers holds the message exactly once. -/
theorem c9_thm_witness :
    (Subscriber.mk 0 [(7 : ℕ)]).sid = (Subscriber.mk 0 ([] : List ℕ)).sid ∧
    (Subscriber.mk 0 [(7 : ℕ)]).inbox.count 7 =
      (Subscriber.mk 0 ([] : List ℕ)).inbox.count 7 + 1 :=
  (c9_thm ℕ [Subscriber.mk 0 [], Subscriber.mk 1 []] 7 0).2.2.1 0
    (Subscriber.mk 0 []) (Subscriber.mk 0 [7]) rfl rfl
